import Mathlib

/-!
Verification of the static file responder in `src/server.js`.

The server (lines 24-45 of `src/server.js`) handles a request as follows:
it substitutes `/index.html` for the exact URL `/`, joins the request URL
onto the fixed root directory with `path.join`, resolves a Content-Type
from the lower-cased `path.extname` of the joined path via the `mimeTypes`
table (falling back to `application/octet-stream`), and calls `fs.readFile`;
on success it answers 200 with the file bytes and the Content-Type header,
on an `ENOENT` error 404 with body `File not found`, and on any other error
500 with body `Server error`.

The filesystem is modelled as a function from path strings to read results,
matching the single `fs.readFile(filePath, cb)` call: the callback receives
either the content bytes or an error carrying a `code` string such as
`ENOENT`.  Node's `path.join` and `path.extname` are platform primitives;
they are modelled below from their documented POSIX semantics (segment
normalization for `join`; extension of the final path component, with the
dot-file and `..` exceptions, for `extname`).
-/

/-- Result of one `fs.readFile` call: the content bytes on success, or an
error whose `code` field is a string such as `ENOENT` or `EACCES`. -/
inductive ReadResult where
  | ok (content : List Nat)
  | err (code : String)
deriving DecidableEq, Repr

/-- A filesystem state: what reading each path string would return. -/
def FsState : Type := String → ReadResult

/-- Body of an HTTP response: raw file bytes (`res.end(content)` with a
Buffer) or a literal text message (`res.end('...')`). -/
inductive Body where
  | bytes (content : List Nat)
  | text (s : String)
deriving DecidableEq, Repr

/-- The response produced for one request: status code, the optional
Content-Type header set by `writeHead`, and the body. -/
structure Response where
  status : Nat
  contentType : Option String
  body : Body
deriving DecidableEq, Repr

/-! Character helpers: JavaScript `toLowerCase` restricted to ASCII, which
is all the MIME table's keys use. -/

/-- ASCII lower-casing of one character, as `String.prototype.toLowerCase`
acts on ASCII letters. -/
def charLower (c : Char) : Char :=
  if 'A' ≤ c ∧ c ≤ 'Z' then Char.ofNat (c.toNat + 32) else c

/-- ASCII upper-casing of one character (used to state case-insensitivity). -/
def charUpper (c : Char) : Char :=
  if 'a' ≤ c ∧ c ≤ 'z' then Char.ofNat (c.toNat - 32) else c

/-- ASCII lower-casing of a string. -/
def lowerStr (s : String) : String := String.mk (s.data.map charLower)

/-- ASCII upper-casing of a string. -/
def upperStr (s : String) : String := String.mk (s.data.map charUpper)

/-! Model of Node's POSIX `path.join` / `path.normalize`. -/

/-- Split a character list at every `/`. -/
def splitOnSlash : List Char → List (List Char)
  | [] => [[]]
  | c :: rest =>
    if c = '/' then [] :: splitOnSlash rest
    else
      match splitOnSlash rest with
      | [] => [[c]]
      | s :: ss => (c :: s) :: ss

/-- Join segments with `/` between them. -/
def interSlash : List (List Char) → List Char
  | [] => []
  | [p] => p
  | p :: ps => p ++ '/' :: interSlash ps

/-- One step of segment normalization for an absolute path, the stack held
most-recent-first: empty and `.` segments are dropped, `..` pops (and is
dropped at the root), anything else is pushed. -/
def normStack (st : List (List Char)) (seg : List Char) : List (List Char) :=
  if seg = [] ∨ seg = ['.'] then st
  else if seg = ['.', '.'] then st.tail
  else seg :: st

/-- One step of segment normalization for a relative path: `..` above the
root is kept. -/
def normStackRel (st : List (List Char)) (seg : List Char) : List (List Char) :=
  if seg = [] ∨ seg = ['.'] then st
  else if seg = ['.', '.'] then
    match st with
    | [] => [seg]
    | p :: rest => if p = ['.', '.'] then seg :: p :: rest else rest
  else seg :: st

/-- Whether a character list ends with `/`. -/
def endsSlash (l : List Char) : Bool :=
  match l.reverse with
  | [] => false
  | c :: _ => if c = '/' then true else false

/-- Node's POSIX `path.normalize` on a character list: resolve `.` and `..`
segments, collapse repeated `/`, keep a trailing `/`. -/
def normalizeChars (l : List Char) : List Char :=
  if l.head? = some '/' then
    let segs := ((splitOnSlash l).foldl normStack []).reverse
    let core := '/' :: interSlash segs
    if endsSlash l ∧ segs ≠ [] then core ++ ['/'] else core
  else
    let segs := ((splitOnSlash l).foldl normStackRel []).reverse
    if segs = [] then (if endsSlash l then ['.', '/'] else ['.'])
    else if endsSlash l then interSlash segs ++ ['/'] else interSlash segs

/-- Node's POSIX `path.normalize` on strings. -/
def normalizeStr (s : String) : String := String.mk (normalizeChars s.data)

/-- Node's POSIX `path.join` on two arguments: the non-empty arguments
joined with `/` and normalized; `.` when both are empty. -/
def pathJoin (a b : String) : String :=
  if a = "" ∧ b = "" then "."
  else if a = "" then normalizeStr b
  else if b = "" then normalizeStr a
  else normalizeStr (a ++ "/" ++ b)

/-! Model of Node's POSIX `path.extname`. -/

/-- Drop trailing `/` characters. -/
def dropTrailingSlashes (l : List Char) : List Char :=
  (l.reverse.dropWhile (fun c => c = '/')).reverse

/-- The final path component: everything after the last `/`, trailing
slashes ignored. -/
def lastComponent (l : List Char) : List Char :=
  (((dropTrailingSlashes l).reverse.takeWhile (fun c => c ≠ '/'))).reverse

/-- Node's `path.extname` on the final component alone: the part from the
last `.` to the end, except that a component with no `.`, a component whose
only `.` is its leading character, and the component `..` have no
extension. -/
def extOfBase (b : List Char) : List Char :=
  if b = ['.', '.'] then []
  else
    let after := b.reverse.takeWhile (fun c => c ≠ '.')
    if after.length = b.length then []
    else if after.length + 1 = b.length then []
    else '.' :: after.reverse

/-- Node's POSIX `path.extname` on a character list. -/
def extnameChars (l : List Char) : List Char := extOfBase (lastComponent l)

/-- Node's POSIX `path.extname` on strings. -/
def extname (s : String) : String := String.mk (extnameChars s.data)

/-! The MIME table and Content-Type resolution (`src/server.js` lines 10-29). -/

/-- The `mimeTypes` object literal of `src/server.js` lines 10-22. -/
def mimeTypes : List (String × String) :=
  [(".html", "text/html"),
   (".css", "text/css"),
   (".js", "application/javascript"),
   (".json", "application/json"),
   (".png", "image/png"),
   (".jpg", "image/jpeg"),
   (".gif", "image/gif"),
   (".svg", "image/svg+xml"),
   (".ico", "image/x-icon"),
   (".md", "text/markdown"),
   (".txt", "text/plain")]

/-- Property lookup `mimeTypes[ext]` on the object literal. -/
def lookupMime (k : String) : List (String × String) → Option String
  | [] => none
  | (k₀, v) :: rest => if k = k₀ then some v else lookupMime k rest

/-- Lines 28-29: `ext = path.extname(filePath).toLowerCase()` and
`contentType = mimeTypes[ext] || 'application/octet-stream'` (every table
value is a non-empty, hence truthy, string). -/
def contentTypeFor (filePath : String) : String :=
  (lookupMime (lowerStr (extname filePath)) mimeTypes).getD "application/octet-stream"

/-! The request handler (`src/server.js` lines 24-45). -/

/-- Lines 25-26: substitute `/index.html` for the exact URL `/`, then join
onto the root directory (`STATIC_DIR`). -/
def resolvePath (root url : String) : String :=
  pathJoin root (if url = "/" then "/index.html" else url)

/-- The request handler of lines 24-45: one response per request, from the
read result of the resolved path. -/
def handle (root : String) (fs : FsState) (url : String) : Response :=
  let filePath := resolvePath root url
  let contentType := contentTypeFor filePath
  match fs filePath with
  | .ok content => ⟨200, some contentType, .bytes content⟩
  | .err code =>
    if code = "ENOENT" then ⟨404, none, .text "File not found"⟩
    else ⟨500, none, .text "Server error"⟩

/-! Vocabulary for stating properties about roots and paths. -/

/-- An ordinary path segment: non-empty, not `.`, not `..`, and without a
`/`.  The segments of any real directory path are of this form. -/
def plainSeg (s : List Char) : Prop :=
  s ≠ [] ∧ s ≠ ['.'] ∧ s ≠ ['.', '.'] ∧ '/' ∉ s

instance (s : List Char) : Decidable (plainSeg s) := by
  unfold plainSeg; infer_instance

/-- The character list of the absolute path with the given segments. -/
def absRenderChars (segs : List (List Char)) : List Char :=
  '/' :: interSlash segs

/-- The absolute path with the given segments, e.g. `/srv/site`. -/
def absRender (segs : List (List Char)) : String :=
  String.mk (absRenderChars segs)

/-- Whether the first list is an initial run of the second. -/
def isPre : List Char → List Char → Bool
  | [], _ => true
  | _ :: _, [] => false
  | a :: as, b :: bs => if a = b then isPre as bs else false

/-- Whether path `p` is the directory `root` itself or lies below it. -/
def isUnder (root p : String) : Prop :=
  p = root ∨ isPre (root.data ++ ['/']) p.data = true

/-- Whether a request path contains a `..` parent-directory segment. -/
def hasParentRef (url : String) : Bool :=
  (splitOnSlash url.data).any (fun s => decide (s = ['.', '.']))

/-! Effect trace of the handler.  The handler's only filesystem interaction
is the single `fs.readFile(filePath, ...)` call on line 31; it never calls
a writing or deleting filesystem API. -/

/-- A filesystem operation: read a file, overwrite a file, or delete one. -/
inductive FsOp where
  | readFile (p : String)
  | writeFile (p : String) (c : List Nat)
  | unlink (p : String)
deriving DecidableEq, Repr

/-- Whether an operation is a pure read. -/
def FsOp.isRead : FsOp → Bool
  | .readFile _ => true
  | _ => false

/-- Effect of one filesystem operation on the filesystem state. -/
def applyFsOp (fs : FsState) : FsOp → FsState
  | .readFile _ => fs
  | .writeFile p c => fun q => if q = p then .ok c else fs q
  | .unlink p => fun q => if q = p then .err "ENOENT" else fs q

/-- Effect of a sequence of filesystem operations. -/
def applyFsOps (fs : FsState) (ops : List FsOp) : FsState :=
  ops.foldl applyFsOp fs

/-- The filesystem operations the handler performs for one request: exactly
the one `fs.readFile` of the resolved path (line 31). -/
def handleFsOps (root url : String) : List FsOp :=
  [.readFile (resolvePath root url)]

/-! Definitions following the words of the specification, for comparison
with the code's extension resolution. -/

/-- Index of the first occurrence of a character in a list. -/
def firstIdxOf (c : Char) : List Char → Option Nat
  | [] => none
  | x :: xs => if x = c then some 0 else (firstIdxOf c xs).map (fun n => n + 1)

/-- Modelled from the spec claim's words: the extension of a resolved path
is the substring from the last `.` of the path to the end, lower-cased
(empty when the path has no `.` at all). -/
def specClaimedExt (p : String) : String :=
  match firstIdxOf '.' p.data.reverse with
  | none => ""
  | some j => lowerStr (String.mk (p.data.drop (p.data.length - 1 - j)))

/-- The Content-Type the spec claim's words assign to a resolved path: the
claimed extension looked up in the MIME table, with the
`application/octet-stream` fallback. -/
def specClaimedContentType (p : String) : String :=
  (lookupMime (specClaimedExt p) mimeTypes).getD "application/octet-stream"

/-- Extension extraction as the amended claim words it: the substring from
the last `.` of the path's final slash-free component to the end, except
that it is empty when the component has no `.`, when the component's last
`.` is its first character, or when the component is exactly `..`. -/
def specAmendedExt (p : String) : String :=
  let b := lastComponent p.data
  if b = ['.', '.'] then ""
  else
    (firstIdxOf '.' b.reverse).elim ""
      (fun j => if j + 1 = b.length then "" else String.mk (b.drop (b.length - 1 - j)))

/-- The Content-Type the amended claim assigns to a resolved path. -/
def specAmendedContentType (p : String) : String :=
  (lookupMime (lowerStr (specAmendedExt p)) mimeTypes).getD "application/octet-stream"

/-! Concrete filesystem states used to exercise the theorems. -/

/-- Byte contents of the scenario file: the UTF-8 bytes of the text
written as h1 heading around the word Hi. -/
def exBytesIndex : List Nat := [60, 104, 49, 62, 72, 105, 60, 47, 104, 49, 62]

/-- A filesystem holding exactly one readable file, `/srv/index.html`. -/
def exFsIndex : FsState := fun p =>
  if p = "/srv/index.html" then .ok exBytesIndex else .err "ENOENT"

/-- A filesystem holding exactly one readable file, the dot-file
`/srv/.html`. -/
def exFsDotHtml : FsState := fun p =>
  if p = "/srv/.html" then .ok [104, 105] else .err "ENOENT"

/-- A filesystem where `/srv/secret.txt` exists but reading it fails with a
permission error. -/
def exFsPerm : FsState := fun p =>
  if p = "/srv/secret.txt" then .err "EACCES" else .err "ENOENT"

/-- A filesystem where every read succeeds with the same one-byte content. -/
def exFsAll : FsState := fun _ => .ok [42]

/-- A filesystem agreeing with `exFsAll` at `/srv/a.txt` only. -/
def exFsAgree : FsState := fun p =>
  if p = "/srv/a.txt" then .ok [42] else .err "EIO"

/-! Infrastructure lemmas about the path machinery. -/

lemma splitOnSlash_no_slash (p : List Char) (h : '/' ∉ p) :
    splitOnSlash p = [p] := by
  induction p with
  | nil => rfl
  | cons c rest ih =>
    have hc : ¬ c = '/' := fun hc => h (hc ▸ List.mem_cons_self c rest)
    have hr : '/' ∉ rest := fun hr => h (List.mem_cons_of_mem c hr)
    simp only [splitOnSlash, if_neg hc, ih hr]

lemma splitOnSlash_append (p t : List Char) (h : '/' ∉ p) :
    splitOnSlash (p ++ '/' :: t) = p :: splitOnSlash t := by
  induction p with
  | nil => simp [splitOnSlash]
  | cons c rest ih =>
    have hc : ¬ c = '/' := fun hc => h (hc ▸ List.mem_cons_self c rest)
    have hr : '/' ∉ rest := fun hr => h (List.mem_cons_of_mem c hr)
    simp only [List.cons_append, splitOnSlash, if_neg hc]
    rw [show splitOnSlash (List.append rest ('/' :: t)) = rest :: splitOnSlash t
      from ih hr]

lemma interSlash_cons (p : List Char) (ps : List (List Char)) (h : ps ≠ []) :
    interSlash (p :: ps) = p ++ '/' :: interSlash ps := by
  cases ps with
  | nil => exact absurd rfl h
  | cons q qs => rfl

lemma interSlash_append (a b : List (List Char)) (ha : a ≠ []) (hb : b ≠ []) :
    interSlash (a ++ b) = interSlash a ++ '/' :: interSlash b := by
  induction a with
  | nil => exact absurd rfl ha
  | cons p ps ih =>
    cases ps with
    | nil =>
      simp only [List.cons_append, List.nil_append]
      rw [interSlash_cons p b hb]
      rfl
    | cons q qs =>
      have hne : q :: qs ≠ [] := by simp
      have hne₂ : (q :: qs) ++ b ≠ [] := by simp
      rw [List.cons_append, interSlash_cons p _ hne₂, interSlash_cons p _ hne,
        ih hne, List.append_assoc]
      rfl

lemma splitOnSlash_interSlash (parts : List (List Char)) (hne : parts ≠ [])
    (h : ∀ p ∈ parts, '/' ∉ p) :
    splitOnSlash (interSlash parts) = parts := by
  induction parts with
  | nil => exact absurd rfl hne
  | cons p ps ih =>
    cases ps with
    | nil => exact splitOnSlash_no_slash p (h p (List.mem_cons_self p []))
    | cons q qs =>
      have hq : q :: qs ≠ [] := by simp
      rw [interSlash_cons p _ hq,
        splitOnSlash_append p _ (h p (List.mem_cons_self p _)),
        ih hq (fun r hr => h r (List.mem_cons_of_mem p hr))]

lemma normStack_empty (st : List (List Char)) : normStack st [] = st := by
  simp [normStack]

lemma normStack_plain (st : List (List Char)) (s : List Char) (h : plainSeg s) :
    normStack st s = s :: st := by
  obtain ⟨h₁, h₂, h₃, _⟩ := h
  simp [normStack, h₁, h₂, h₃]

lemma foldl_normStack_plain (segs : List (List Char)) (st : List (List Char))
    (h : ∀ s ∈ segs, plainSeg s) :
    List.foldl normStack st segs = segs.reverse ++ st := by
  induction segs generalizing st with
  | nil => rfl
  | cons s rest ih =>
    rw [List.foldl_cons, normStack_plain st s (h s (List.mem_cons_self s rest)),
      ih (s :: st) (fun r hr => h r (List.mem_cons_of_mem s hr))]
    simp

lemma foldl_normStack_dotdot (k : Nat) (st : List (List Char)) :
    List.foldl normStack st (List.replicate k ['.', '.']) = st.drop k := by
  induction k generalizing st with
  | zero => rfl
  | succ n ih =>
    rw [List.replicate_succ, List.foldl_cons]
    have hstep : normStack st ['.', '.'] = st.tail := by simp [normStack]
    rw [hstep, ih]
    cases st <;> simp

lemma takeWhile_all_append (l r : List Char) (x : Char) (q : Char → Bool)
    (hl : ∀ c ∈ l, q c = true) (hx : q x = false) :
    (l ++ x :: r).takeWhile q = l := by
  induction l with
  | nil => simp [List.takeWhile_cons, hx]
  | cons c cs ih =>
    have hc := hl c (List.mem_cons_self c cs)
    simp only [List.cons_append, List.takeWhile_cons, hc,
      ih (fun d hd => hl d (List.mem_cons_of_mem c hd))]
    simp

lemma dropWhile_of_head_neg (l : List Char) (q : Char → Bool)
    (hne : l ≠ []) (h : ∀ c ∈ l, q c = false) :
    l.dropWhile q = l := by
  cases l with
  | nil => exact absurd rfl hne
  | cons c cs =>
    simp [List.dropWhile_cons, h c (List.mem_cons_self c cs)]

lemma endsSlash_concat (x comp : List Char) (h1 : comp ≠ []) (h2 : '/' ∉ comp) :
    endsSlash (x ++ comp) = false := by
  unfold endsSlash
  rw [List.reverse_append]
  obtain ⟨c, cs, hc⟩ : ∃ c cs, comp.reverse = c :: cs := by
    cases hr : comp.reverse with
    | nil => exact absurd (List.reverse_eq_nil_iff.mp hr) h1
    | cons c cs => exact ⟨c, cs, rfl⟩
  rw [hc]
  have hcm : c ∈ comp := by
    have : c ∈ comp.reverse := hc ▸ List.mem_cons_self c cs
    exact List.mem_reverse.mp this
  have : ¬ c = '/' := fun hcc => h2 (hcc ▸ hcm)
  simp [this]

lemma dropWhile_cons_neg (c : Char) (cs : List Char) (q : Char → Bool)
    (h : q c = false) : (c :: cs).dropWhile q = c :: cs := by
  simp [List.dropWhile_cons, h]

lemma interSlash_quad (segs tail : List (List Char)) (hne : segs ≠ [])
    (htail : tail ≠ []) :
    interSlash ([[]] ++ segs ++ [[]] ++ tail) =
      '/' :: interSlash segs ++ '/' :: '/' :: interSlash tail := by
  have h₁ : segs ++ [[]] ++ tail ≠ [] := by
    cases segs with
    | nil => exact absurd rfl hne
    | cons a as => simp
  have h₂ : ([[]] : List (List Char)) ++ tail ≠ [] := by simp
  rw [show [[]] ++ segs ++ [[]] ++ tail = [] :: (segs ++ ([[]] ++ tail)) by simp,
    interSlash_cons _ _ (by
      cases segs with
      | nil => exact absurd rfl hne
      | cons a as => simp),
    interSlash_append segs ([[]] ++ tail) hne h₂,
    show ([[]] : List (List Char)) ++ tail = [] :: tail from rfl,
    interSlash_cons _ _ htail]
  rfl

lemma normalizeChars_abs_join (segs tail : List (List Char))
    (hsegs : ∀ s ∈ segs, plainSeg s) (hne : segs ≠ []) (htail : tail ≠ [])
    (htailslash : ∀ p ∈ tail, '/' ∉ p) :
    normalizeChars ('/' :: interSlash segs ++ '/' :: '/' :: interSlash tail) =
      if endsSlash ('/' :: interSlash segs ++ '/' :: '/' :: interSlash tail)
          ∧ (List.foldl normStack segs.reverse tail).reverse ≠ []
      then '/' :: interSlash (List.foldl normStack segs.reverse tail).reverse ++ ['/']
      else '/' :: interSlash (List.foldl normStack segs.reverse tail).reverse := by
  have hJ : '/' :: interSlash segs ++ '/' :: '/' :: interSlash tail =
      interSlash ([[]] ++ segs ++ [[]] ++ tail) :=
    (interSlash_quad segs tail hne htail).symm
  have hparts : ∀ p ∈ [[]] ++ segs ++ [[]] ++ tail, '/' ∉ p := by
    intro p hp
    rcases List.mem_append.mp hp with hp₁ | hp₁
    · rcases List.mem_append.mp hp₁ with hp₂ | hp₂
      · rcases List.mem_append.mp hp₂ with hp₃ | hp₃
        · rw [List.mem_singleton.mp hp₃]; exact List.not_mem_nil '/'
        · exact (hsegs p hp₃).2.2.2
      · rw [List.mem_singleton.mp hp₂]; exact List.not_mem_nil '/'
    · exact htailslash p hp₁
  have hsplit : splitOnSlash ('/' :: interSlash segs ++ '/' :: '/' :: interSlash tail)
      = [[]] ++ segs ++ [[]] ++ tail := by
    rw [hJ]
    exact splitOnSlash_interSlash _ (by simp) hparts
  have hfold : List.foldl normStack [] ([[]] ++ segs ++ [[]] ++ tail)
      = List.foldl normStack segs.reverse tail := by
    rw [show ([[]] ++ segs ++ [[]] ++ tail : List (List Char))
        = [] :: (segs ++ ([] :: tail)) by simp]
    rw [List.foldl_cons, normStack_empty, List.foldl_append, List.foldl_cons,
      foldl_normStack_plain segs [] hsegs, List.append_nil, normStack_empty]
  have hhead : ('/' :: interSlash segs ++ '/' :: '/' :: interSlash tail).head?
      = some '/' := rfl
  unfold normalizeChars
  rw [if_pos hhead, hsplit, hfold]

lemma resolveChars_plain (segs : List (List Char)) (comp : List Char)
    (hne : segs ≠ []) (hsegs : ∀ s ∈ segs, plainSeg s) (hcomp : plainSeg comp) :
    normalizeChars ('/' :: interSlash segs ++ '/' :: '/' :: comp) =
      '/' :: interSlash segs ++ '/' :: comp := by
  have h := normalizeChars_abs_join segs [comp] hsegs hne (by simp)
    (by intro p hp; simp at hp; rw [hp]; exact hcomp.2.2.2)
  rw [show interSlash [comp] = comp from rfl] at h
  have hends : endsSlash ('/' :: interSlash segs ++ '/' :: '/' :: comp) = false := by
    have : ('/' :: interSlash segs ++ '/' :: '/' :: comp)
        = (('/' :: interSlash segs) ++ ['/', '/']) ++ comp := by simp
    rw [this]
    exact endsSlash_concat _ comp hcomp.1 hcomp.2.2.2
  have hfold : List.foldl normStack segs.reverse [comp] = comp :: segs.reverse := by
    rw [List.foldl_cons, normStack_plain _ _ hcomp]
    rfl
  rw [hfold] at h
  rw [h, if_neg (by rw [hends]; simp)]
  rw [List.reverse_cons, List.reverse_reverse,
    interSlash_append segs [comp] hne (by simp)]
  rfl

lemma resolveChars_dotdot (segs : List (List Char)) (hne : segs ≠ [])
    (hsegs : ∀ s ∈ segs, plainSeg s) :
    normalizeChars ('/' :: interSlash segs ++ '/' :: '/' ::
      interSlash (List.replicate segs.length ['.', '.'])) = ['/'] := by
  have hlen : segs.length ≠ 0 := by
    intro h; exact hne (List.length_eq_zero.mp h)
  have h := normalizeChars_abs_join segs (List.replicate segs.length ['.', '.'])
    hsegs hne
    (by intro h; exact hlen (by simpa using congrArg List.length h))
    (by intro p hp; rw [List.eq_of_mem_replicate hp]; simp)
  have hfold : List.foldl normStack segs.reverse
      (List.replicate segs.length ['.', '.']) = [] := by
    rw [foldl_normStack_dotdot]
    rw [show segs.length = segs.reverse.length by simp]
    exact List.drop_length _
  rw [hfold] at h
  rw [h, if_neg (by simp)]
  rfl

lemma mk_cons_ne_empty (c : Char) (l : List Char) : String.mk (c :: l) ≠ "" := by
  intro h
  have h₂ : c :: l = [] := by
    have h₃ := congrArg String.data h
    simp at h₃
  exact List.cons_ne_nil c l h₂

lemma append_data_triple (a b : String) :
    (a ++ "/" ++ b) = String.mk (a.data ++ '/' :: b.data) := by
  apply String.ext
  rw [String.data_append, String.data_append]
  simp

lemma pathJoin_mk (segs : List (List Char)) (rest : List Char) :
    pathJoin (absRender segs) (String.mk ('/' :: rest)) =
      String.mk (normalizeChars ('/' :: interSlash segs ++ '/' :: '/' :: rest)) := by
  have ha : absRender segs ≠ "" := mk_cons_ne_empty '/' (interSlash segs)
  have hb : String.mk ('/' :: rest) ≠ "" := mk_cons_ne_empty '/' rest
  unfold pathJoin
  rw [if_neg (by rintro ⟨h₁, _⟩; exact ha h₁), if_neg ha, if_neg hb,
    append_data_triple _ _]
  unfold normalizeStr absRender absRenderChars
  apply String.ext
  simp

lemma resolvePath_plain (segs : List (List Char)) (comp : List Char)
    (hne : segs ≠ []) (hsegs : ∀ s ∈ segs, plainSeg s) (hcomp : plainSeg comp) :
    resolvePath (absRender segs) (String.mk ('/' :: comp)) =
      String.mk ('/' :: interSlash segs ++ '/' :: comp) := by
  have hurl : String.mk ('/' :: comp) ≠ "/" := by
    intro h
    have h₂ := congrArg String.data h
    simp at h₂
    exact hcomp.1 h₂
  unfold resolvePath
  rw [if_neg hurl, pathJoin_mk, resolveChars_plain segs comp hne hsegs hcomp]

lemma interSlash_head_ne (p : List Char) (ps : List (List Char)) (hp : p ≠ []) :
    interSlash (p :: ps) ≠ [] := by
  cases ps with
  | nil => exact hp
  | cons q qs =>
    cases p with
    | nil => exact absurd rfl hp
    | cons c cs => simp [interSlash]

lemma resolvePath_dotdot (segs : List (List Char)) (hne : segs ≠ [])
    (hsegs : ∀ s ∈ segs, plainSeg s) :
    resolvePath (absRender segs)
      (String.mk ('/' :: interSlash (List.replicate segs.length ['.', '.']))) = "/" := by
  have hk : segs.length ≠ 0 := fun h => hne (List.length_eq_zero.mp h)
  have hrep : interSlash (List.replicate segs.length ['.', '.']) ≠ [] := by
    cases hs : segs.length with
    | zero => exact absurd hs hk
    | succ n =>
      rw [List.replicate_succ]
      exact interSlash_head_ne _ _ (by simp)
  have hurl : String.mk ('/' :: interSlash (List.replicate segs.length ['.', '.'])) ≠ "/" := by
    intro h
    have h₂ := congrArg String.data h
    simp at h₂
    exact hrep h₂
  unfold resolvePath
  rw [if_neg hurl, pathJoin_mk, resolveChars_dotdot segs hne hsegs]

lemma lastComponent_concat (x comp : List Char) (h1 : comp ≠ []) (h2 : '/' ∉ comp) :
    lastComponent (x ++ '/' :: comp) = comp := by
  obtain ⟨c, cs, hc⟩ : ∃ c cs, comp.reverse = c :: cs := by
    cases hr : comp.reverse with
    | nil => exact absurd (List.reverse_eq_nil_iff.mp hr) h1
    | cons c cs => exact ⟨c, cs, rfl⟩
  have hcm : c ∈ comp := List.mem_reverse.mp (hc ▸ List.mem_cons_self c cs)
  have hcslash : ¬ c = '/' := fun h => h2 (h ▸ hcm)
  have hrev : (x ++ '/' :: comp).reverse = comp.reverse ++ '/' :: x.reverse := by
    simp
  have hdrop : dropTrailingSlashes (x ++ '/' :: comp) = x ++ '/' :: comp := by
    unfold dropTrailingSlashes
    rw [hrev, hc, List.cons_append, dropWhile_cons_neg c _ _ (by simp [hcslash]),
      ← List.cons_append, ← hc, ← hrev, List.reverse_reverse]
  unfold lastComponent
  rw [hdrop, hrev, hc]
  rw [show c :: cs ++ '/' :: x.reverse = (c :: cs) ++ '/' :: x.reverse from rfl]
  rw [takeWhile_all_append (c :: cs) x.reverse '/' _
    (by
      intro d hd
      have hdm : d ∈ comp := List.mem_reverse.mp (hc ▸ hd)
      have : ¬ d = '/' := fun h => h2 (h ▸ hdm)
      simp [this])
    (by simp)]
  rw [← hc, List.reverse_reverse]

lemma extname_concat (x comp : List Char) (h1 : comp ≠ []) (h2 : '/' ∉ comp) :
    extnameChars (x ++ '/' :: comp) = extOfBase comp := by
  unfold extnameChars
  rw [lastComponent_concat x comp h1 h2]

lemma contentTypeFor_mk (x comp : List Char) (h1 : comp ≠ []) (h2 : '/' ∉ comp) :
    contentTypeFor (String.mk (x ++ '/' :: comp)) =
      (lookupMime (lowerStr (String.mk (extOfBase comp))) mimeTypes).getD
        "application/octet-stream" := by
  unfold contentTypeFor extname
  rw [show (String.mk (x ++ '/' :: comp)).data = x ++ '/' :: comp from rfl,
    extname_concat x comp h1 h2]

/-! Helper lemmas about the handler's three branches. -/

lemma handle_ok (root : String) (fs : FsState) (url : String) (content : List Nat)
    (h : fs (resolvePath root url) = .ok content) :
    handle root fs url =
      ⟨200, some (contentTypeFor (resolvePath root url)), .bytes content⟩ := by
  simp [handle, h]

lemma handle_enoent (root : String) (fs : FsState) (url : String)
    (h : fs (resolvePath root url) = .err "ENOENT") :
    handle root fs url = ⟨404, none, .text "File not found"⟩ := by
  simp [handle, h]

lemma handle_other_err (root : String) (fs : FsState) (url : String) (code : String)
    (hc : code ≠ "ENOENT") (h : fs (resolvePath root url) = .err code) :
    handle root fs url = ⟨500, none, .text "Server error"⟩ := by
  simp [handle, h, hc]

/-! Lemmas relating `firstIdxOf` to the scan in `extOfBase`, for the
equivalence between the implementation's extension extraction and the
amended specification wording. -/

lemma firstIdxOf_none_takeWhile (ch : Char) (l : List Char)
    (h : firstIdxOf ch l = none) : l.takeWhile (fun c => c ≠ ch) = l := by
  induction l with
  | nil => rfl
  | cons x xs ih =>
    unfold firstIdxOf at h
    by_cases hx : x = ch
    · rw [if_pos hx] at h
      exact absurd h (by simp)
    · rw [if_neg hx] at h
      have h₂ : firstIdxOf ch xs = none := by
        cases hfi : firstIdxOf ch xs with
        | none => rfl
        | some j => rw [hfi] at h; simp at h
      rw [List.takeWhile_cons, if_pos (by simp [hx]), ih h₂]

lemma firstIdxOf_some_spec (ch : Char) (l : List Char) (j : Nat)
    (h : firstIdxOf ch l = some j) :
    (l.takeWhile (fun c => c ≠ ch)).length = j ∧
      l.take (j + 1) = l.takeWhile (fun c => c ≠ ch) ++ [ch] ∧ j < l.length := by
  induction l generalizing j with
  | nil => simp [firstIdxOf] at h
  | cons x xs ih =>
    unfold firstIdxOf at h
    by_cases hx : x = ch
    · rw [if_pos hx] at h
      have hj : j = 0 := by
        have h₀ := Option.some.inj h
        omega
      subst hj
      refine ⟨?_, ?_, ?_⟩
      · rw [List.takeWhile_cons, if_neg (by simp [hx])]
        rfl
      · rw [List.takeWhile_cons, if_neg (by simp [hx])]
        simp [hx]
      · simp only [List.length_cons]
        omega
    · rw [if_neg hx] at h
      cases hfi : firstIdxOf ch xs with
      | none => rw [hfi] at h; simp at h
      | some j₀ =>
        rw [hfi] at h
        have hj : j₀ + 1 = j := by
          have h₀ : some (j₀ + 1) = some j := h
          exact Option.some.inj h₀
        obtain ⟨ih₁, ih₂, ih₃⟩ := ih j₀ hfi
        subst hj
        refine ⟨?_, ?_, ?_⟩
        · rw [List.takeWhile_cons, if_pos (by simp [hx])]
          simp only [List.length_cons, ih₁]
        · rw [List.takeWhile_cons, if_pos (by simp [hx]),
            List.take_succ_cons, ih₂]
          rfl
        · simp only [List.length_cons]
          omega

lemma drop_eq_reverse_take (l : List Char) (n : Nat) :
    l.drop (l.length - n) = (l.reverse.take n).reverse := by
  have h := List.rtake_eq_reverse_take_reverse l n
  rw [List.rtake] at h
  exact h

lemma extOfBase_amended (b : List Char) :
    String.mk (extOfBase b) =
      (if b = ['.', '.'] then ""
       else
        (firstIdxOf '.' b.reverse).elim ""
          (fun j => if j + 1 = b.length then ""
                    else String.mk (b.drop (b.length - 1 - j)))) := by
  by_cases hdd : b = ['.', '.']
  · rw [if_pos hdd]
    unfold extOfBase
    rw [if_pos hdd]
  · rw [if_neg hdd]
    unfold extOfBase
    rw [if_neg hdd]
    simp only
    cases hfi : firstIdxOf '.' b.reverse with
    | none =>
      have htw := firstIdxOf_none_takeWhile '.' b.reverse hfi
      rw [htw, List.length_reverse, if_pos rfl]
      rfl
    | some j =>
      obtain ⟨h₁, h₂, h₃⟩ := firstIdxOf_some_spec '.' b.reverse j hfi
      rw [List.length_reverse] at h₃
      rw [if_neg (by rw [h₁]; omega)]
      simp only [Option.elim_some]
      by_cases hlast : j + 1 = b.length
      · rw [if_pos (by rw [h₁]; exact hlast), if_pos hlast]
      · rw [if_neg (by rw [h₁]; exact hlast), if_neg hlast]
        have hdr : b.drop (b.length - 1 - j) = (b.reverse.take (j + 1)).reverse := by
          rw [show b.length - 1 - j = b.length - (j + 1) by omega]
          exact drop_eq_reverse_take b (j + 1)
        rw [hdr, h₂]
        apply String.ext
        simp

lemma extname_eq_specAmendedExt (p : String) : extname p = specAmendedExt p := by
  unfold extname extnameChars specAmendedExt
  exact extOfBase_amended (lastComponent p.data)

/-! Lemmas about `isPre`, `isUnder` and `hasParentRef`, used for the
path-traversal property. -/

lemma isPre_nil_false (a : List Char) (ha : a ≠ []) : isPre a [] = false := by
  cases a with
  | nil => exact absurd rfl ha
  | cons c cs => rfl

lemma not_isUnder_root_slash (segs : List (List Char)) (hne : segs ≠ [])
    (hsegs : ∀ s ∈ segs, plainSeg s) : ¬ isUnder (absRender segs) "/" := by
  intro h
  rcases h with h | h
  · have h₂ := congrArg String.data h
    simp only [absRender, absRenderChars] at h₂
    have h₃ : interSlash segs = [] := by
      have h₄ : ['/'] = '/' :: interSlash segs := h₂
      exact (List.cons.inj h₄).2.symm
    obtain ⟨s, ss, rfl⟩ : ∃ s ss, segs = s :: ss := by
      cases segs with
      | nil => exact absurd rfl hne
      | cons s ss => exact ⟨s, ss, rfl⟩
    exact interSlash_head_ne s ss (hsegs s (List.mem_cons_self s ss)).1 h₃
  · have h₃ : isPre ('/' :: (interSlash segs ++ ['/'])) ['/'] = true := by
      have h₄ : (absRender segs).data ++ ['/'] = '/' :: (interSlash segs ++ ['/']) := by
        simp [absRender, absRenderChars]
      rw [h₄] at h
      exact h
    unfold isPre at h₃
    rw [if_pos rfl, isPre_nil_false _ (by simp)] at h₃
    exact Bool.false_ne_true h₃

lemma hasParentRef_dotdot (segs : List (List Char)) (hne : segs ≠ []) :
    hasParentRef
      (String.mk ('/' :: interSlash (List.replicate segs.length ['.', '.']))) = true := by
  unfold hasParentRef
  obtain ⟨n, hn⟩ : ∃ n, segs.length = n + 1 := by
    cases hs : segs.length with
    | zero => exact absurd (List.length_eq_zero.mp hs) hne
    | succ n => exact ⟨n, rfl⟩
  rw [hn]
  have hj : ('/' : Char) :: interSlash (List.replicate (n + 1) ['.', '.']) =
      interSlash ([[]] ++ List.replicate (n + 1) ['.', '.']) := by
    rw [show ([[]] ++ List.replicate (n + 1) ['.', '.'] : List (List Char))
        = [] :: List.replicate (n + 1) ['.', '.'] from rfl,
      interSlash_cons _ _ (by simp)]
    rfl
  rw [show (String.mk ('/' :: interSlash (List.replicate (n + 1) ['.', '.']))).data
      = '/' :: interSlash (List.replicate (n + 1) ['.', '.']) from rfl, hj,
    splitOnSlash_interSlash _ (by simp)
      (by
        intro p hp
        rcases List.mem_append.mp hp with hp₁ | hp₁
        · rw [List.mem_singleton.mp hp₁]
          exact List.not_mem_nil '/'
        · rw [List.eq_of_mem_replicate hp₁]
          simp)]
  rw [List.replicate_succ]
  simp

/-- Content-Type of a successful response for the request `/<comp>` against
a root made of plain segments: the MIME table lookup of the lower-cased
extension of `comp`. -/
lemma contentType_of_plain_request (segs : List (List Char)) (comp : List Char)
    (hne : segs ≠ []) (hsegs : ∀ s ∈ segs, plainSeg s) (hcomp : plainSeg comp)
    (fs : FsState) (c : List Nat)
    (h : fs (resolvePath (absRender segs) (String.mk ('/' :: comp))) = .ok c) :
    (handle (absRender segs) fs (String.mk ('/' :: comp))).contentType =
      some ((lookupMime (lowerStr (String.mk (extOfBase comp))) mimeTypes).getD
        "application/octet-stream") := by
  rw [handle_ok _ _ _ c h]
  show some (contentTypeFor (resolvePath (absRender segs) (String.mk ('/' :: comp)))) = _
  rw [resolvePath_plain segs comp hne hsegs hcomp,
    contentTypeFor_mk ('/' :: interSlash segs) comp hcomp.1 hcomp.2.2.2]

/-- C1: for every request path whose resolved file is read successfully,
the responder produces exactly one response: status 200, the Content-Type
resolved by the extension pipeline for the request, and a body
byte-for-byte equal to the file content, untransformed. -/
theorem claim_C1 (root : String) (fs : FsState) (url : String) (content : List Nat)
    (h : fs (resolvePath root url) = .ok content) :
    handle root fs url =
      ⟨200, some (contentTypeFor (resolvePath root url)), .bytes content⟩ :=
  handle_ok root fs url content h

theorem claim_C1_witness :
    exFsIndex (resolvePath "/srv" "/index.html") = .ok exBytesIndex ∧
      handle "/srv" exFsIndex "/index.html" =
        ⟨200, some "text/html", .bytes exBytesIndex⟩ :=
  ⟨by decide,
    (claim_C1 "/srv" exFsIndex "/index.html" exBytesIndex (by decide)).trans (by decide)⟩

/-- C2: the responder returns 404 with the non-empty plain-text body
`File not found` exactly when reading the resolved path fails with
`ENOENT`, the entity-does-not-exist error; no other condition maps to
404. -/
theorem claim_C2 (root : String) (fs : FsState) (url : String) :
    ((handle root fs url).status = 404 ↔
        fs (resolvePath root url) = .err "ENOENT")
    ∧ (fs (resolvePath root url) = .err "ENOENT" →
        (handle root fs url).body = .text "File not found"
        ∧ "File not found" ≠ "") := by
  constructor
  · constructor
    · intro h404
      cases hfs : fs (resolvePath root url) with
      | ok c =>
        rw [handle_ok root fs url c hfs] at h404
        simp at h404
      | err code =>
        by_cases hc : code = "ENOENT"
        · rw [hc]
        · rw [handle_other_err root fs url code hc hfs] at h404
          simp at h404
    · intro hfs
      rw [handle_enoent root fs url hfs]
  · intro hfs
    rw [handle_enoent root fs url hfs]
    exact ⟨rfl, by decide⟩

theorem claim_C2_witness :
    ((handle "/srv" exFsIndex "/missing.html").status = 404 ↔
        exFsIndex (resolvePath "/srv" "/missing.html") = .err "ENOENT")
    ∧ ((handle "/srv" exFsIndex "/missing.html").body = .text "File not found"
        ∧ "File not found" ≠ "") :=
  ⟨(claim_C2 "/srv" exFsIndex "/missing.html").1,
    (claim_C2 "/srv" exFsIndex "/missing.html").2 (by decide)⟩

/-- C3: every read failure other than `ENOENT` is answered with status 500
and the non-empty plain-text body `Server error`. -/
theorem claim_C3 (root : String) (fs : FsState) (url : String) (code : String)
    (hc : code ≠ "ENOENT") (h : fs (resolvePath root url) = .err code) :
    (handle root fs url).status = 500
    ∧ (handle root fs url).body = .text "Server error"
    ∧ "Server error" ≠ "" := by
  rw [handle_other_err root fs url code hc h]
  exact ⟨rfl, rfl, by decide⟩

theorem claim_C3_witness :
    (handle "/srv" exFsPerm "/secret.txt").status = 500
    ∧ (handle "/srv" exFsPerm "/secret.txt").body = .text "Server error"
    ∧ "Server error" ≠ "" :=
  claim_C3 "/srv" exFsPerm "/secret.txt" "EACCES" (by decide) (by decide)

/-- C4: for every entry of the MIME table, a successful request for
`/file<ext>` returns the table's Content-Type, and writing the extension in
upper case resolves to the same Content-Type, the lookup being performed on
the lower-cased extension. -/
theorem claim_C4 (e m : String) (hm : (e, m) ∈ mimeTypes)
    (segs : List (List Char)) (hne : segs ≠ [])
    (hsegs : ∀ s ∈ segs, plainSeg s) (fs : FsState) (c₁ c₂ : List Nat)
    (h₁ : fs (resolvePath (absRender segs)
      (String.mk ('/' :: ("file" ++ e).data))) = .ok c₁)
    (h₂ : fs (resolvePath (absRender segs)
      (String.mk ('/' :: ("file" ++ upperStr e).data))) = .ok c₂) :
    (handle (absRender segs) fs
        (String.mk ('/' :: ("file" ++ e).data))).contentType = some m
    ∧ (handle (absRender segs) fs
        (String.mk ('/' :: ("file" ++ upperStr e).data))).contentType = some m := by
  fin_cases hm <;>
    exact ⟨(contentType_of_plain_request segs _ hne hsegs (by decide) fs c₁ h₁).trans
        (by decide),
      (contentType_of_plain_request segs _ hne hsegs (by decide) fs c₂ h₂).trans
        (by decide)⟩

theorem claim_C4_witness :
    ((".html", "text/html") ∈ mimeTypes)
    ∧ (handle (absRender [String.data "srv"]) exFsAll
        (String.mk ('/' :: ("file" ++ ".html").data))).contentType = some "text/html"
    ∧ (handle (absRender [String.data "srv"]) exFsAll
        (String.mk ('/' :: ("file" ++ upperStr ".html").data))).contentType
        = some "text/html" :=
  ⟨by decide,
    (claim_C4 ".html" "text/html" (by decide) [String.data "srv"] (by decide)
      (by decide) exFsAll [42] [42] (by decide) (by decide)).1,
    (claim_C4 ".html" "text/html" (by decide) [String.data "srv"] (by decide)
      (by decide) exFsAll [42] [42] (by decide) (by decide)).2⟩

/-- C5 counterexample: for the request `/.html` against root `/srv` the
file is read successfully, the claimed extension rule (substring from the
last dot of the resolved path, lower-cased, looked up in the table) yields
`text/html`, but the response's Content-Type is
`application/octet-stream`: `path.extname` gives a dot-file no extension,
so the claim's description of the extension is false as stated. -/
theorem claim_C5_counterexample :
    specClaimedContentType (resolvePath "/srv" "/.html") = "text/html"
    ∧ handle "/srv" exFsDotHtml "/.html" =
        ⟨200, some "application/octet-stream", .bytes [104, 105]⟩
    ∧ ("application/octet-stream" : String) ≠ "text/html" :=
  ⟨by decide, by decide, by decide⟩

/-- C5 amended: for every successful request, the Content-Type is obtained
from the extension of the resolved path's final slash-free component — the
substring from that component's last `.` to the end, lower-cased, except
empty when the component has no `.`, when its last `.` is its first
character, or when the component is `..` — looked up in the MIME table with
the `application/octet-stream` fallback. -/
theorem claim_C5_amended (root : String) (fs : FsState) (url : String)
    (c : List Nat) (h : fs (resolvePath root url) = .ok c) :
    (handle root fs url).contentType =
      some (specAmendedContentType (resolvePath root url))
    ∧ extname (resolvePath root url) = specAmendedExt (resolvePath root url) := by
  constructor
  · rw [handle_ok root fs url c h]
    show some (contentTypeFor (resolvePath root url)) = _
    unfold contentTypeFor specAmendedContentType
    rw [extname_eq_specAmendedExt]
  · exact extname_eq_specAmendedExt _

theorem claim_C5_witness :
    exFsDotHtml (resolvePath "/srv" "/.html") = .ok [104, 105]
    ∧ (handle "/srv" exFsDotHtml "/.html").contentType =
        some (specAmendedContentType (resolvePath "/srv" "/.html"))
    ∧ extname (resolvePath "/srv" "/.html") =
        specAmendedExt (resolvePath "/srv" "/.html") :=
  ⟨by decide,
    (claim_C5_amended "/srv" exFsDotHtml "/.html" [104, 105] (by decide)).1,
    (claim_C5_amended "/srv" exFsDotHtml "/.html" [104, 105] (by decide)).2⟩

/-- C6: the request `/` is substituted by `/index.html` before resolution,
so for any root and any filesystem state the two requests get identical
responses. -/
theorem claim_C6 (root : String) (fs : FsState) :
    handle root fs "/" = handle root fs "/index.html" := by
  have hres : resolvePath root "/" = resolvePath root "/index.html" := by
    unfold resolvePath
    rw [if_pos rfl, if_neg (by decide)]
  unfold handle
  rw [hres]

/-- C7: the handler is total — for every request path and every filesystem
outcome it produces one response whose status is 200, 404 or 500; no read
failure escapes. -/
theorem claim_C7 (root : String) (fs : FsState) (url : String) :
    (handle root fs url).status = 200 ∨ (handle root fs url).status = 404 ∨
      (handle root fs url).status = 500 := by
  cases hfs : fs (resolvePath root url) with
  | ok c =>
    left
    rw [handle_ok root fs url c hfs]
  | err code =>
    by_cases hc : code = "ENOENT"
    · right; left
      rw [hc] at hfs
      rw [handle_enoent root fs url hfs]
    · right; right
      rw [handle_other_err root fs url code hc hfs]

/-- C8: resolution of every request other than the bare `/` is exactly the
`path.join` of the request path onto the root, with no stripping of `..`
segments, and consequently some request containing `..` resolves outside
the root directory. -/
theorem claim_C8 (segs : List (List Char)) (hne : segs ≠ [])
    (hsegs : ∀ s ∈ segs, plainSeg s) :
    (∀ url : String, url ≠ "/" →
        resolvePath (absRender segs) url = pathJoin (absRender segs) url)
    ∧ ∃ url : String, hasParentRef url = true ∧
        ¬ isUnder (absRender segs) (resolvePath (absRender segs) url) := by
  refine ⟨fun url hurl => by unfold resolvePath; rw [if_neg hurl], ?_⟩
  refine ⟨String.mk ('/' :: interSlash (List.replicate segs.length ['.', '.'])), ?_, ?_⟩
  · exact hasParentRef_dotdot segs hne
  · rw [resolvePath_dotdot segs hne hsegs]
    exact not_isUnder_root_slash segs hne hsegs

theorem claim_C8_witness :
    (∀ url : String, url ≠ "/" →
        resolvePath (absRender [String.data "srv"]) url =
          pathJoin (absRender [String.data "srv"]) url)
    ∧ ∃ url : String, hasParentRef url = true ∧
        ¬ isUnder (absRender [String.data "srv"])
          (resolvePath (absRender [String.data "srv"]) url) :=
  claim_C8 [String.data "srv"] (by decide) (by decide)

/-- C9: handling a request performs exactly one filesystem operation, a
read of the resolved path: replaying the trace leaves the filesystem state
unchanged, every traced operation is a read, and the response depends on
the filesystem only through the traced path. -/
theorem claim_C9 (root url : String) (fs₁ fs₂ : FsState)
    (hagree : fs₁ (resolvePath root url) = fs₂ (resolvePath root url)) :
    applyFsOps fs₁ (handleFsOps root url) = fs₁
    ∧ (handleFsOps root url).all FsOp.isRead = true
    ∧ handle root fs₁ url = handle root fs₂ url := by
  refine ⟨rfl, rfl, ?_⟩
  simp only [handle]
  rw [hagree]

theorem claim_C9_witness :
    applyFsOps exFsAll (handleFsOps "/srv" "/a.txt") = exFsAll
    ∧ (handleFsOps "/srv" "/a.txt").all FsOp.isRead = true
    ∧ handle "/srv" exFsAll "/a.txt" = handle "/srv" exFsAgree "/a.txt" :=
  claim_C9 "/srv" "/a.txt" exFsAll exFsAgree (by decide)

/-- C10: the raw request URL is used verbatim — only the exact string `/`
is substituted, a query string stays part of the looked-up file name, so
`/index.html?v=1` resolves to the literal file name `index.html?v=1` and
is answered 404 when that file is absent even though `/index.html` itself
is served with 200. -/
theorem claim_C10 (segs : List (List Char)) (hne : segs ≠ [])
    (hsegs : ∀ s ∈ segs, plainSeg s) (fs : FsState) (c : List Nat)
    (h₁ : fs (resolvePath (absRender segs) "/index.html?v=1") = .err "ENOENT")
    (h₂ : fs (resolvePath (absRender segs) "/index.html") = .ok c) :
    (∀ url : String, url ≠ "/" →
        resolvePath (absRender segs) url = pathJoin (absRender segs) url)
    ∧ resolvePath (absRender segs) "/index.html?v=1" =
        String.mk ((absRender segs).data ++ '/' :: String.data "index.html?v=1")
    ∧ (handle (absRender segs) fs "/index.html?v=1").status = 404
    ∧ (handle (absRender segs) fs "/index.html").status = 200 := by
  have hlit : ("/index.html?v=1" : String) =
      String.mk ('/' :: String.data "index.html?v=1") := by decide
  refine ⟨fun url hurl => by unfold resolvePath; rw [if_neg hurl], ?_, ?_, ?_⟩
  · rw [hlit, resolvePath_plain segs (String.data "index.html?v=1") hne hsegs
      (by decide)]
    apply String.ext
    simp [absRender, absRenderChars]
  · rw [handle_enoent _ fs _ h₁]
  · rw [handle_ok _ fs _ c h₂]

theorem claim_C10_witness :
    (∀ url : String, url ≠ "/" →
        resolvePath (absRender [String.data "srv"]) url =
          pathJoin (absRender [String.data "srv"]) url)
    ∧ resolvePath (absRender [String.data "srv"]) "/index.html?v=1" =
        String.mk ((absRender [String.data "srv"]).data
          ++ '/' :: String.data "index.html?v=1")
    ∧ (handle (absRender [String.data "srv"]) exFsIndex "/index.html?v=1").status = 404
    ∧ (handle (absRender [String.data "srv"]) exFsIndex "/index.html").status = 200 :=
  claim_C10 [String.data "srv"] (by decide) (by decide) exFsIndex exBytesIndex
    (by decide) (by decide)
